import Mathlib

/-!
Verification development for the suijin repository (D8 flow-direction over a
raster elevation surface).  The Python sources `suijin/elevation.py` and
`suijin/hydro.py` are shallowly embedded below: machine floats are modelled
as rationals (the program only compares, copies and sums them), text is
modelled as lists of characters, and fallible operations return `Option`.
-/

set_option maxHeartbeats 1000000

/-! ### Character and numeral toolkit (models of the Python builtins used) -/

/-- Splits a character list at every separator recognised by `p`, keeping
empty fragments; this is the semantics of the Python expression
`s.split(sep)` for a one-character `sep` (with `p` matching exactly that
character).  The result is always non-empty. -/
def splitBy (p : Char → Bool) : List Char → List (List Char)
  | [] => [[]]
  | c :: rest =>
    if p c then [] :: splitBy p rest
    else
      match splitBy p rest with
      | [] => [[c]]
      | t :: ts => (c :: t) :: ts

/-- Removes leading and trailing whitespace; the semantics of Python
`str.strip()` with no arguments. -/
def trimChars (l : List Char) : List Char :=
  ((l.dropWhile (·.isWhitespace)).reverse.dropWhile (·.isWhitespace)).reverse

/-- Maximal runs of non-whitespace characters; the semantics of Python
`str.split()` with no arguments (used by `numpy.loadtxt` to tokenise a data
line). -/
def wsTokens (l : List Char) : List (List Char) :=
  (splitBy (·.isWhitespace) l).filter (· ≠ [])

/-- The decimal digit character for a digit value below ten. -/
def digitChar (d : Nat) : Char := Char.ofNat (48 + d)

/-- Big-endian digit values of a natural number. -/
def natDigitsAux (n : Nat) : List Nat :=
  if h : n < 10 then [n]
  else natDigitsAux (n / 10) ++ [n % 10]
  termination_by n
  decreasing_by exact Nat.div_lt_self (by omega) (by omega)

/-- Decimal digit characters of a natural number. -/
def natDigits (n : Nat) : List Char := (natDigitsAux n).map digitChar

/-- Models Python `str` applied to an `int`: an optional minus sign followed
by the decimal digits. -/
def pyStrInt (z : Int) : List Char :=
  if z < 0 then '-' :: natDigits z.natAbs else natDigits z.natAbs

/-- Numeric value of a run of decimal digit characters. -/
def digitsValC (ds : List Char) : Nat :=
  ds.foldl (fun a c => 10 * a + (c.toNat - 48)) 0

/-- Mantissa of a Python float literal: integer digits, optionally followed
by a decimal point and fraction digits.  At least one digit must be present
overall. -/
def parseMantissa (m : List Char) : Option ℚ :=
  match splitBy (fun c => c = '.') m with
  | [ip] =>
    if ip ≠ [] ∧ ip.all (·.isDigit) then some (digitsValC ip : ℚ) else none
  | [ip, fp] =>
    if (ip ++ fp) ≠ [] ∧ (ip ++ fp).all (·.isDigit) then
      some ((digitsValC ip : ℚ) + (digitsValC fp : ℚ) / (10 : ℚ) ^ fp.length)
    else none
  | _ => none

/-- Exponent part of a Python float literal: an optional sign followed by a
non-empty run of digits. -/
def parseExpPart (l : List Char) : Option Int :=
  match l with
  | [] => none
  | c :: rest =>
    if c = '-' then
      if rest ≠ [] ∧ rest.all (·.isDigit) then some (-(digitsValC rest : Int)) else none
    else if c = '+' then
      if rest ≠ [] ∧ rest.all (·.isDigit) then some (digitsValC rest : Int) else none
    else if (c :: rest).all (·.isDigit) then some (digitsValC (c :: rest) : Int)
    else none

/-- Unsigned decimal part of a Python float literal, with an optional
exponent introduced by the letter e. -/
def parseUnsignedDec (s : List Char) : Option ℚ :=
  match splitBy (fun c => c = 'e' || c = 'E') s with
  | [m] => parseMantissa m
  | [m, ex] =>
    match parseMantissa m, parseExpPart ex with
    | some mv, some ev => some (mv * (10 : ℚ) ^ ev)
    | _, _ => none
  | _ => none

/-- Models the Python builtin `float` applied to a string holding a decimal
literal: surrounding whitespace is ignored, then an optional sign and a
decimal mantissa with optional exponent are read.  The special spellings
inf and nan (never produced nor consumed by this program) are not
modelled. -/
def pyFloat (s : List Char) : Option ℚ :=
  match trimChars s with
  | [] => none
  | c :: rest =>
    if c = '-' then (parseUnsignedDec rest).map (fun v => -v)
    else if c = '+' then parseUnsignedDec rest
    else parseUnsignedDec (c :: rest)

/-- Models the Python builtin `int` applied to a float: truncation toward
zero. -/
def pyInt (q : ℚ) : Int := q.num.tdiv q.den

/-- Models Python `str` applied to a float64 that holds an exact integer,
which renders as the integer digits followed by a dot and a zero (the only
values this program ever formats as floats are direction codes and the
sentinel, all integral).  Non-integral floats render in Python via the
shortest round-tripping decimal, which is outside this model; here they
render as the empty string and every theorem about rendering carries an
integrality hypothesis. -/
def pyStrFloat (q : ℚ) : List Char :=
  if q.den = 1 then pyStrInt q.num ++ ['.', '0'] else []

/-- Single-space join; the semantics of the Python expression
`" ".join(tokens)` used when rendering one data row. -/
def joinSpace : List (List Char) → List Char
  | [] => []
  | [t] => t
  | t :: ts => t ++ ' ' :: joinSpace ts

/-- Option-valued traversal of a list, failing as soon as one element fails;
models a Python list comprehension over a fallible function. -/
def optMapM {α β : Type} (f : α → Option β) : List α → Option (List β)
  | [] => some []
  | a :: l =>
    match f a with
    | none => none
    | some b =>
      match optMapM f l with
      | none => none
      | some bs => some (b :: bs)

/-! ### The elevation module (`suijin/elevation.py`) -/

/-- The `Elevation` named tuple of `elevation.py`: six scalar header fields
and the data matrix.  Header values are floats in Python (they come out of
`float(...)`), so all six are rationals here. -/
structure Elevation where
  ncols : ℚ
  nrows : ℚ
  xllcorner : ℚ
  yllcorner : ℚ
  cellsize : ℚ
  nodata_value : ℚ
  data : List (List ℚ)
  deriving DecidableEq

/-- Number of header lines of the ASCII-grid intermediate format
(`elevation.header_size`). -/
def header_size : Nat := 6

/-- The `clean` lambda of `elevation._parse_headers`: split the header line
on single spaces, take the last fragment, strip it, and read it as a
float.  Translated from `float(header.split(' ')[-1].strip())`. -/
def clean (header : List Char) : Option ℚ :=
  pyFloat (trimChars ((splitBy (fun c => c = ' ') header).getLastD []))

/-- The header-parsing pass of `elevation._parse_headers`: `clean` applied
to each of the first six lines of the file.  `linecache.getline` yields the
line including its newline, and the empty string for a line number past the
end of the file, which `List.getD` with default `[]` reproduces. -/
def parse_headers (file : List (List Char)) : Option (List ℚ) :=
  optMapM (fun n => clean (file.getD n [])) (List.range header_size)

/-- Non-blank token rows of the data section, as read by `numpy.loadtxt`:
each line is split on whitespace and blank lines are skipped. -/
def rowsOf (ls : List (List Char)) : List (List (List Char)) :=
  (ls.map wsTokens).filter (· ≠ [])

/-- Models `numpy.loadtxt` on the lines after the header: every token of
every non-blank line must parse as a float and all rows must have the same
number of columns, otherwise the load fails.  (numpy interleaves the two
checks line by line; only the failure-or-result abstraction matters here.
numpy also returns a one-dimensional array when exactly one data row is
present; that shape quirk is not modelled.) -/
def loadtxt (ls : List (List Char)) : Option (List (List ℚ)) :=
  let rows := rowsOf ls
  if rows.all (fun ts => ts.length = (rows.headD []).length) then
    optMapM (fun ts => optMapM pyFloat ts) rows
  else none

/-- The textual stage of `elevation.read`: load the matrix with six rows
skipped, parse the six header values, and assemble the named tuple.
Opening the raster and converting it to the textual grid are I/O performed
by GDAL before this stage and are not part of the embedding. -/
def elevation.read (file : List (List Char)) : Option Elevation :=
  match loadtxt (file.drop header_size) with
  | none => none
  | some data =>
    match parse_headers file with
    | some [nc, nr, xll, yll, cs, nd] => some ⟨nc, nr, xll, yll, cs, nd, data⟩
    | _ => none

/-! ### The hydro module (`suijin/hydro.py`) -/

/-- The `hydro.Cell` value: matrix position, direction code and the
elevation surface it points into. -/
structure Cell where
  x : Int
  y : Int
  value : Int
  elevation : Elevation
  deriving DecidableEq

/-- Python list indexing `data[x][y]` as used by the hydro module.  The
module only ever indexes after a bounds check (or on coordinates it just
checked), so the out-of-range default never matters; negative-index
wrap-around is likewise never exercised. -/
def pyLookup (d : List (List ℚ)) (x y : Int) : ℚ :=
  (d.getD x.toNat []).getD y.toNat 0

/-- Translated from `Cell.is_valid`: within bounds on both axes and the
stored elevation differs from the NODATA sentinel of the input surface. -/
def Cell.is_valid (c : Cell) : Bool :=
  decide (0 ≤ c.x) &&
  decide (0 ≤ c.y) &&
  decide ((c.x : ℚ) < c.elevation.nrows) &&
  decide ((c.y : ℚ) < c.elevation.ncols) &&
  decide (pyLookup c.elevation.data c.x c.y ≠ c.elevation.nodata_value)

/-- Translated from `Direction._cell_elevation`: the elevation datapoint at
the position of the cell. -/
def cell_elevation (c : Cell) : ℚ :=
  pyLookup c.elevation.data c.x c.y

/-- The comparison used by `sorted(neighbours, key=self._cell_elevation)`:
ascending by elevation. -/
def cellLe (a b : Cell) : Prop := cell_elevation a ≤ cell_elevation b

instance : DecidableRel cellLe := fun a b =>
  inferInstanceAs (Decidable (cell_elevation a ≤ cell_elevation b))

instance : IsTotal Cell cellLe := ⟨fun a b => le_total (cell_elevation a) (cell_elevation b)⟩

instance : IsTrans Cell cellLe := ⟨fun _ _ _ h1 h2 => le_trans h1 h2⟩

/-- The accumulation loop of `Direction._process_element`: walk the sorted
tail, adding the direction code of every cell whose elevation equals that
of the minimum cell, and stop at the first cell with a different (hence
strictly greater) elevation. -/
def tie_sum (m : Cell) : List Cell → Int
  | [] => 0
  | n :: rest =>
    if cell_elevation n = cell_elevation m then n.value + tie_sum m rest
    else 0

/-- Translated from `Direction._process_element`: sort the candidate cells
ascending by elevation, pop the minimum, and add the codes of the cells
tied with it.  Python `sorted` is a stable comparison sort; a stable
insertion sort realises the same specification (and the result of this
function is independent of how elevation ties are ordered).  An empty
candidate list has no minimum to pop (`collection.pop(0)` would raise), so
the result is `none`; the caller guards against it. -/
def process_element (neighbours : List Cell) : Option Int :=
  match List.insertionSort cellLe neighbours with
  | [] => none
  | m :: rest => some (m.value + tie_sum m rest)

/-- Translated from `Grid.nodata`: the fixed output sentinel. -/
def nodata : ℚ := -9999

/-- numpy truthiness test `self.data.any()`: some stored element is
non-zero. -/
def dataAny (data : List (List ℚ)) : Bool :=
  data.any (fun row => row.any (fun q => decide (q ≠ 0)))

/-- Models `np.append(data, [row], axis=0)`: stacking a new row under the
existing ones requires every stored row to have the width of the new
row. -/
def npAppendRows (data : List (List ℚ)) (row : List ℚ) : Option (List (List ℚ)) :=
  if data.all (fun r => r.length = row.length) then some (data ++ [row]) else none

/-- Models `np.append(data, [row], axis=1)`: concatenating along columns
requires the stored array to have exactly one row (the `[row]` operand has
one), and widens that row. -/
def npAppendCols (data : List (List ℚ)) (row : List ℚ) : Option (List (List ℚ)) :=
  match data with
  | [d] => some [d ++ row]
  | _ => none

/-- Translated from `Grid.add_row`: when the stored data is truthy the new
row is stacked with `axis=0`, otherwise it is appended with `axis=1` (the
grid starts as the 1-by-0 array `np.array([[]], ndmin=2)`). -/
def add_row (data : List (List ℚ)) (row : List ℚ) : Option (List (List ℚ)) :=
  if dataAny data then npAppendRows data row else npAppendCols data row

/-- The eight neighbour cells of `(row, col)` with their direction codes,
exactly as enumerated in `Direction.run`. -/
def neighbours (e : Elevation) (row col : Int) : List Cell :=
  [ Cell.mk (row - 1) (col - 1) 32 e,
    Cell.mk (row - 1) col 64 e,
    Cell.mk (row - 1) (col + 1) 128 e,
    Cell.mk row (col - 1) 16 e,
    Cell.mk row (col + 1) 1 e,
    Cell.mk (row + 1) (col - 1) 8 e,
    Cell.mk (row + 1) col 4 e,
    Cell.mk (row + 1) (col + 1) 2 e ]

/-- The per-cell body of the loop in `Direction.run`: keep the valid
neighbours, resolve the direction over them, and fall back to the output
sentinel when none is valid. -/
def directionValue (e : Elevation) (row col : Int) : ℚ :=
  match process_element ((neighbours e row col).filter Cell.is_valid) with
  | some v => (v : ℚ)
  | none => nodata

/-- Loop bound `range(int(self.input_data.nrows))` of `Direction.run`. -/
def nrBound (e : Elevation) : Nat := (pyInt e.nrows).toNat

/-- Loop bound `range(int(self.input_data.ncols))` of `Direction.run`. -/
def ncBound (e : Elevation) : Nat := (pyInt e.ncols).toNat

/-- One `direction_row` of `Direction.run`: the resolved value for every
column of the given row. -/
def directionRow (e : Elevation) (row : Nat) : List ℚ :=
  (List.range (ncBound e)).map (fun col : Nat => directionValue e (row : Int) (col : Int))

/-- The row loop of `Direction.run`: each direction row is handed to
`Grid.add_row` in order; a shape failure aborts the run. -/
def runRows (e : Elevation) (data : List (List ℚ)) : List Nat → Option (List (List ℚ))
  | [] => some data
  | r :: rs =>
    match add_row data (directionRow e r) with
    | none => none
    | some d => runRows e d rs

/-- Translated from `Direction.run`: starting from the empty 1-by-0 grid,
append the direction row of every elevation row in order; the resulting
matrix is what `Grid.render` then serialises. -/
def run (e : Elevation) : Option (List (List ℚ)) :=
  runRows e [[]] (List.range (nrBound e))

/-- Translated from `Grid.render`: the six header lines with their exact
key spellings and spacing, `ncols` and `nrows` written through `int(...)`,
the NODATA header written from `Grid.nodata`, then one line per stored row
with values joined by single spaces.  Each written line ends in a
newline. -/
def render (e : Elevation) (data : List (List ℚ)) : List (List Char) :=
  ("ncols       ".toList ++ pyStrInt (pyInt e.ncols) ++ ['\n']) ::
  ("nrows       ".toList ++ pyStrInt (pyInt e.nrows) ++ ['\n']) ::
  ("xllcorner   ".toList ++ pyStrFloat e.xllcorner ++ ['\n']) ::
  ("yllcorner   ".toList ++ pyStrFloat e.yllcorner ++ ['\n']) ::
  ("cellsize   ".toList ++ pyStrFloat e.cellsize ++ ['\n']) ::
  ("NODATA_value   ".toList ++ pyStrInt (-9999) ++ ['\n']) ::
  data.map (fun row => joinSpace (row.map pyStrFloat) ++ ['\n'])

/-- Reading of a header line that follows the words of the specification:
the last whitespace-delimited token of the line, read as a number.  This is
the comparison point for the refinement claim about header parsing; the
code's own extraction is `clean` above. -/
def specHeaderValue (header : List Char) : Option ℚ :=
  pyFloat ((wsTokens header).getLastD [])

/-! ### Lemmas about the character toolkit -/

lemma splitBy_ne_nil (p : Char → Bool) : ∀ l, splitBy p l ≠ [] := by
  intro l
  induction l with
  | nil => simp [splitBy]
  | cons c rest ih =>
    by_cases hc : p c
    · simp [splitBy, hc]
    · simp only [splitBy, hc, if_false, Bool.false_eq_true]
      cases hsp : splitBy p rest with
      | nil => simp
      | cons t ts => simp

lemma splitBy_length_two (p : Char → Bool) (sep : Char) (hp : p sep = true) :
    ∀ xs ys, 2 ≤ (splitBy p (xs ++ sep :: ys)).length := by
  intro xs ys
  induction xs with
  | nil =>
    simp only [List.nil_append, splitBy, hp, if_true]
    have := splitBy_ne_nil p ys
    cases h : splitBy p ys with
    | nil => exact absurd h this
    | cons t ts => simp
  | cons c xs ih =>
    by_cases hc : p c
    · simp [splitBy, hc]
      omega
    · simp only [List.cons_append, splitBy, hc, if_false, Bool.false_eq_true]
      cases hsp : splitBy p (xs ++ sep :: ys) with
      | nil => exact absurd hsp (splitBy_ne_nil p _)
      | cons t ts =>
        rw [hsp] at ih
        simp only [List.length_cons] at ih ⊢
        omega

lemma getLastD_of_ne_nil {α : Type} {l : List α} (h : l ≠ []) (d1 d2 : α) :
    l.getLastD d1 = l.getLastD d2 := by
  cases l with
  | nil => exact absurd rfl h
  | cons a t => rw [List.getLastD_cons, List.getLastD_cons]

lemma splitBy_getLastD_append (p : Char → Bool) (sep : Char) (hp : p sep = true) :
    ∀ xs ys, (splitBy p (xs ++ sep :: ys)).getLastD [] = (splitBy p ys).getLastD [] := by
  intro xs ys
  induction xs with
  | nil =>
    simp only [List.nil_append, splitBy, hp, if_true]
    rw [List.getLastD_cons]
  | cons c xs ih =>
    by_cases hc : p c
    · simp only [List.cons_append, splitBy, hc, if_true]
      rw [List.getLastD_cons]
      exact ih
    · simp only [List.cons_append, splitBy, hc, if_false, Bool.false_eq_true]
      cases hsp : splitBy p (xs ++ sep :: ys) with
      | nil => exact absurd hsp (splitBy_ne_nil p _)
      | cons t ts =>
        have hlen := splitBy_length_two p sep hp xs ys
        rw [hsp] at hlen ih
        cases ts with
        | nil => simp at hlen
        | cons t2 ts2 =>
          rw [List.getLastD_cons] at ih ⊢
          rw [getLastD_of_ne_nil (by simp) (c :: t) t]
          exact ih

lemma splitBy_of_no_sep (p : Char → Bool) {l : List Char}
    (h : ∀ c ∈ l, p c = false) : splitBy p l = [l] := by
  induction l with
  | nil => simp [splitBy]
  | cons c rest ih =>
    have hc : p c = false := h c (by simp)
    simp only [splitBy, hc, if_false, Bool.false_eq_true]
    rw [ih (fun x hx => h x (by simp [hx]))]

lemma splitBy_append_no_sep (p : Char → Bool) {t : List Char} (sep : Char)
    (ht : ∀ c ∈ t, p c = false) (hp : p sep = true) (ys : List Char) :
    splitBy p (t ++ sep :: ys) = t :: splitBy p ys := by
  induction t with
  | nil => simp [splitBy, hp]
  | cons c t ih =>
    have hc : p c = false := ht c (by simp)
    have ihh := ih (fun x hx => ht x (by simp [hx]))
    simp only [List.cons_append, splitBy, hc, if_false, Bool.false_eq_true]
    cases hsp : splitBy p (t ++ sep :: ys) with
    | nil => exact absurd hsp (splitBy_ne_nil p _)
    | cons a as =>
      rw [hsp] at ihh
      rw [List.cons.injEq] at ihh
      rw [ihh.1, ihh.2]

lemma dropWhile_of_all_false {p : Char → Bool} {l : List Char}
    (h : ∀ c ∈ l, p c = false) : l.dropWhile p = l := by
  cases l with
  | nil => rfl
  | cons c rest => simp [List.dropWhile_cons, h c (by simp)]

lemma trimChars_of_no_ws {v : List Char}
    (h : ∀ c ∈ v, c.isWhitespace = false) : trimChars v = v := by
  unfold trimChars
  rw [dropWhile_of_all_false h]
  rw [dropWhile_of_all_false (fun c hc => h c (List.mem_reverse.mp hc))]
  exact List.reverse_reverse v

lemma trimChars_append_nl {v : List Char} (hv : v ≠ [])
    (h : ∀ c ∈ v, c.isWhitespace = false) : trimChars (v ++ ['\n']) = v := by
  unfold trimChars
  cases v with
  | nil => exact absurd rfl hv
  | cons a t =>
    have ha : a.isWhitespace = false := h a (by simp)
    rw [List.cons_append, List.dropWhile_cons, ha]
    simp only [Bool.false_eq_true, if_false]
    have hrev : (a :: (t ++ ['\n'])).reverse = '\n' :: (a :: t).reverse := by
      simp
    rw [hrev, List.dropWhile_cons]
    have hnl : '\n'.isWhitespace = true := by decide
    rw [hnl, if_pos rfl]
    rw [dropWhile_of_all_false (fun c hc => h c (List.mem_reverse.mp hc))]
    exact List.reverse_reverse _

/-! ### Decimal numerals round-trip through the float model -/

lemma digitChar_facts {d : Nat} (h : d < 10) :
    (digitChar d).toNat - 48 = d ∧ (digitChar d).isDigit = true ∧
    (digitChar d).isWhitespace = false ∧ digitChar d ≠ '.' ∧
    digitChar d ≠ 'e' ∧ digitChar d ≠ 'E' ∧ digitChar d ≠ ' ' ∧
    digitChar d ≠ '-' ∧ digitChar d ≠ '+' := by
  interval_cases d <;> exact (by decide)

lemma natDigitsAux_ne_nil (n : Nat) : natDigitsAux n ≠ [] := by
  rw [natDigitsAux]
  split
  · simp
  · simp

lemma natDigitsAux_mem_lt (n : Nat) : ∀ d ∈ natDigitsAux n, d < 10 := by
  induction n using Nat.strong_induction_on with
  | _ n ih =>
    rw [natDigitsAux]
    split
    · intro d hd
      simp at hd
      omega
    · intro d hd
      rw [List.mem_append] at hd
      rcases hd with hd | hd
      · exact ih (n / 10) (Nat.div_lt_self (by omega) (by omega)) d hd
      · simp at hd
        omega

lemma natDigitsAux_val (n : Nat) :
    (natDigitsAux n).foldl (fun a d => 10 * a + d) 0 = n := by
  induction n using Nat.strong_induction_on with
  | _ n ih =>
    rw [natDigitsAux]
    split
    · simp
    · rw [List.foldl_append]
      rw [ih (n / 10) (Nat.div_lt_self (by omega) (by omega))]
      simp
      omega

lemma digitsValC_map (ds : List Nat) (h : ∀ d ∈ ds, d < 10) :
    digitsValC (ds.map digitChar) = ds.foldl (fun a d => 10 * a + d) 0 := by
  unfold digitsValC
  suffices hgen : ∀ acc : Nat,
      (ds.map digitChar).foldl (fun a c => 10 * a + (c.toNat - 48)) acc =
      ds.foldl (fun a d => 10 * a + d) acc by
    exact hgen 0
  induction ds with
  | nil => intro acc; rfl
  | cons d t ih =>
    intro acc
    simp only [List.map_cons, List.foldl_cons]
    rw [(digitChar_facts (h d (by simp))).1]
    exact ih (fun x hx => h x (by simp [hx])) _

lemma digitsValC_natDigits (n : Nat) : digitsValC (natDigits n) = n := by
  unfold natDigits
  rw [digitsValC_map _ (natDigitsAux_mem_lt n)]
  exact natDigitsAux_val n

lemma natDigits_ne_nil (n : Nat) : natDigits n ≠ [] := by
  unfold natDigits
  simp [natDigitsAux_ne_nil n]

lemma natDigits_mem {n : Nat} {c : Char} (hc : c ∈ natDigits n) :
    ∃ d, d < 10 ∧ c = digitChar d := by
  unfold natDigits at hc
  rw [List.mem_map] at hc
  obtain ⟨d, hd, rfl⟩ := hc
  exact ⟨d, natDigitsAux_mem_lt n d hd, rfl⟩

lemma natDigits_all_digit (n : Nat) : (natDigits n).all (·.isDigit) = true := by
  rw [List.all_eq_true]
  intro c hc
  obtain ⟨d, hd, rfl⟩ := natDigits_mem hc
  exact (digitChar_facts hd).2.1

lemma parseUnsignedDec_no_exp {s : List Char}
    (h : splitBy (fun c => c = 'e' || c = 'E') s = [s]) :
    parseUnsignedDec s = parseMantissa s := by
  unfold parseUnsignedDec
  rw [h]

lemma parseMantissa_no_dot {m : List Char}
    (h : splitBy (fun c => c = '.') m = [m]) :
    parseMantissa m =
      if m ≠ [] ∧ m.all (·.isDigit) then some (digitsValC m : ℚ) else none := by
  unfold parseMantissa
  rw [h]

lemma parseMantissa_dot {m ip fp : List Char}
    (h : splitBy (fun c => c = '.') m = [ip, fp]) :
    parseMantissa m =
      if (ip ++ fp) ≠ [] ∧ (ip ++ fp).all (·.isDigit) then
        some ((digitsValC ip : ℚ) + (digitsValC fp : ℚ) / (10 : ℚ) ^ fp.length)
      else none := by
  unfold parseMantissa
  rw [h]

lemma pyFloat_cons {s : List Char} (c : Char) (rest : List Char)
    (h : trimChars s = c :: rest) :
    pyFloat s =
      if c = '-' then (parseUnsignedDec rest).map (fun v => -v)
      else if c = '+' then parseUnsignedDec rest
      else parseUnsignedDec (c :: rest) := by
  unfold pyFloat
  rw [h]

lemma natDigits_no_eE (n : Nat) :
    splitBy (fun c => c = 'e' || c = 'E') (natDigits n) = [natDigits n] :=
  splitBy_of_no_sep _ (fun c hc => by
    obtain ⟨d, hd, rfl⟩ := natDigits_mem hc
    have hf := digitChar_facts hd
    simp [hf.2.2.2.2.1, hf.2.2.2.2.2.1])

lemma natDigits_no_dot (n : Nat) :
    splitBy (fun c => c = '.') (natDigits n) = [natDigits n] :=
  splitBy_of_no_sep _ (fun c hc => by
    obtain ⟨d, hd, rfl⟩ := natDigits_mem hc
    simp [(digitChar_facts hd).2.2.2.1])

lemma parseUnsignedDec_natDigits (n : Nat) :
    parseUnsignedDec (natDigits n) = some (n : ℚ) := by
  rw [parseUnsignedDec_no_exp (natDigits_no_eE n)]
  rw [parseMantissa_no_dot (natDigits_no_dot n)]
  rw [if_pos ⟨natDigits_ne_nil n, natDigits_all_digit n⟩]
  rw [digitsValC_natDigits]

lemma pyStrInt_no_ws (z : Int) : ∀ c ∈ pyStrInt z, c.isWhitespace = false := by
  intro c hc
  unfold pyStrInt at hc
  have hdig : ∀ x ∈ natDigits z.natAbs, x.isWhitespace = false := by
    intro x hx
    obtain ⟨d, hd, rfl⟩ := natDigits_mem hx
    exact (digitChar_facts hd).2.2.1
  by_cases hz : z < 0
  · rw [if_pos hz] at hc
    rcases List.mem_cons.mp hc with rfl | hc
    · decide
    · exact hdig c hc
  · rw [if_neg hz] at hc
    exact hdig c hc

lemma pyFloat_pyStrInt (z : Int) : pyFloat (pyStrInt z) = some (z : ℚ) := by
  have htrim := trimChars_of_no_ws (pyStrInt_no_ws z)
  by_cases hz : z < 0
  · have hrepr : pyStrInt z = '-' :: natDigits z.natAbs := by
      unfold pyStrInt
      rw [if_pos hz]
    rw [hrepr] at htrim
    rw [hrepr, pyFloat_cons _ _ htrim, if_pos rfl, parseUnsignedDec_natDigits]
    have habs : ((z.natAbs : ℚ)) = -(z : ℚ) := by
      rw [Int.cast_natAbs, abs_of_neg hz, Int.cast_neg]
    rw [habs]
    simp
  · have hrepr : pyStrInt z = natDigits z.natAbs := by
      unfold pyStrInt
      rw [if_neg hz]
    obtain ⟨c, cs, hcons⟩ : ∃ c cs, natDigits z.natAbs = c :: cs := by
      cases h : natDigits z.natAbs with
      | nil => exact absurd h (natDigits_ne_nil _)
      | cons a t => exact ⟨a, t, rfl⟩
    rw [hrepr, hcons] at htrim
    obtain ⟨d, hd, hcd⟩ := natDigits_mem (hcons ▸ List.mem_cons_self c cs)
    have hf := digitChar_facts hd
    rw [hrepr, hcons, pyFloat_cons _ _ htrim]
    rw [if_neg (hcd ▸ hf.2.2.2.2.2.2.2.1), if_neg (hcd ▸ hf.2.2.2.2.2.2.2.2)]
    rw [← hcons, parseUnsignedDec_natDigits]
    have habs : ((z.natAbs : ℚ)) = (z : ℚ) := by
      rw [Int.cast_natAbs, abs_of_nonneg (not_lt.mp hz)]
    rw [habs]

lemma natDigits_dot_chars (n : Nat) :
    ∀ c ∈ natDigits n ++ ['.', '0'], c.isWhitespace = false := by
  intro c hc
  rw [List.mem_append] at hc
  rcases hc with hc | hc
  · obtain ⟨d, hd, rfl⟩ := natDigits_mem hc
    exact (digitChar_facts hd).2.2.1
  · simp at hc
    rcases hc with rfl | rfl <;> decide

lemma parseUnsignedDec_natDigits_dot (n : Nat) :
    parseUnsignedDec (natDigits n ++ ['.', '0']) = some (n : ℚ) := by
  have hs1 : splitBy (fun c => c = 'e' || c = 'E') (natDigits n ++ ['.', '0']) =
      [natDigits n ++ ['.', '0']] := by
    refine splitBy_of_no_sep _ (fun c hc => ?_)
    rw [List.mem_append] at hc
    rcases hc with hc | hc
    · obtain ⟨d, hd, rfl⟩ := natDigits_mem hc
      have hf := digitChar_facts hd
      simp [hf.2.2.2.2.1, hf.2.2.2.2.2.1]
    · simp at hc
      rcases hc with rfl | rfl <;> decide
  have hs2 : splitBy (fun c => c = '.') (natDigits n ++ ['.', '0']) =
      [natDigits n, ['0']] := by
    have h1 : (natDigits n ++ ['.', '0'] : List Char) = natDigits n ++ '.' :: ['0'] := rfl
    rw [h1]
    rw [splitBy_append_no_sep (fun c => c = '.') '.'
      (fun c hc => by
        obtain ⟨d, hd, rfl⟩ := natDigits_mem hc
        simp [(digitChar_facts hd).2.2.2.1])
      (by decide) ['0']]
    rw [splitBy_of_no_sep _ (fun c hc => by
      simp at hc
      rw [hc]
      decide)]
  rw [parseUnsignedDec_no_exp hs1]
  rw [parseMantissa_dot hs2]
  rw [if_pos ⟨by simp [natDigits_ne_nil n], by
    rw [List.all_eq_true]
    intro c hc
    rw [List.mem_append] at hc
    rcases hc with hc | hc
    · obtain ⟨d, hd, rfl⟩ := natDigits_mem hc
      exact (digitChar_facts hd).2.1
    · simp at hc
      rw [hc]
      decide⟩]
  rw [digitsValC_natDigits]
  have h0 : digitsValC ['0'] = 0 := by decide
  rw [h0]
  norm_num

lemma pyFloat_pyStrFloat {q : ℚ} (hq : q.den = 1) :
    pyFloat (pyStrFloat q) = some q := by
  have hrepr : pyStrFloat q = pyStrInt q.num ++ ['.', '0'] := by
    unfold pyStrFloat
    rw [if_pos hq]
  have hval : ((q.num : ℚ)) = q := by
    conv_rhs => rw [← Rat.num_div_den q]
    rw [hq]
    norm_num
  have hnws : ∀ c ∈ pyStrInt q.num ++ ['.', '0'], c.isWhitespace = false := by
    intro c hc
    rw [List.mem_append] at hc
    rcases hc with hc | hc
    · exact pyStrInt_no_ws q.num c hc
    · simp at hc
      rcases hc with rfl | rfl <;> decide
  have htrim := trimChars_of_no_ws hnws
  by_cases hz : q.num < 0
  · have hsg : pyStrInt q.num ++ ['.', '0'] = '-' :: (natDigits q.num.natAbs ++ ['.', '0']) := by
      unfold pyStrInt
      rw [if_pos hz]
      rfl
    rw [hsg] at htrim
    rw [hrepr, hsg, pyFloat_cons _ _ htrim, if_pos rfl, parseUnsignedDec_natDigits_dot]
    have habs : ((q.num.natAbs : ℚ)) = -(q.num : ℚ) := by
      rw [Int.cast_natAbs, abs_of_neg hz, Int.cast_neg]
    rw [habs]
    simp [hval]
  · have hsg : pyStrInt q.num ++ ['.', '0'] = natDigits q.num.natAbs ++ ['.', '0'] := by
      unfold pyStrInt
      rw [if_neg hz]
    obtain ⟨c, cs, hcons⟩ : ∃ c cs, natDigits q.num.natAbs = c :: cs := by
      cases h : natDigits q.num.natAbs with
      | nil => exact absurd h (natDigits_ne_nil _)
      | cons a t => exact ⟨a, t, rfl⟩
    have hsg2 : natDigits q.num.natAbs ++ ['.', '0'] = c :: (cs ++ ['.', '0']) := by
      rw [hcons]
      rfl
    rw [hsg, hsg2] at htrim
    obtain ⟨d, hd, hcd⟩ := natDigits_mem (hcons ▸ List.mem_cons_self c cs)
    have hf := digitChar_facts hd
    rw [hrepr, hsg, hsg2, pyFloat_cons _ _ htrim]
    rw [if_neg (hcd ▸ hf.2.2.2.2.2.2.2.1), if_neg (hcd ▸ hf.2.2.2.2.2.2.2.2)]
    rw [show c :: (cs ++ ['.', '0']) = natDigits q.num.natAbs ++ ['.', '0'] from by
      rw [hcons]
      rfl]
    rw [parseUnsignedDec_natDigits_dot]
    have habs : ((q.num.natAbs : ℚ)) = (q.num : ℚ) := by
      rw [Int.cast_natAbs, abs_of_nonneg (not_lt.mp hz)]
    rw [habs, hval]

/-! ### Header lines and data lines through the two tokenisers -/

lemma getLastD_singleton {α : Type} (a : α) (d : α) : ([a]).getLastD d = a := by
  rw [List.getLastD_cons]
  rfl

lemma no_space_of_no_ws {value : List Char}
    (hvw : ∀ c ∈ value, c.isWhitespace = false) :
    ∀ c ∈ value ++ ['\n'], (decide (c = ' ')) = false := by
  intro c hc
  rw [List.mem_append] at hc
  rcases hc with hc | hc
  · have := hvw c hc
    simp only [decide_eq_false_iff_not]
    intro h
    rw [h] at this
    exact absurd this (by decide)
  · simp at hc
    rw [hc]
    decide

lemma splitBy_space_gap (value : List Char) (hvw : ∀ c ∈ value, c.isWhitespace = false) :
    ∀ j, (splitBy (fun c => c = ' ') (List.replicate j ' ' ++ value ++ ['\n'])).getLastD []
      = value ++ ['\n'] := by
  intro j
  induction j with
  | zero =>
    simp only [List.replicate_zero, List.nil_append]
    rw [splitBy_of_no_sep _ (no_space_of_no_ws hvw)]
    exact getLastD_singleton _ _
  | succ j ih =>
    rw [List.replicate_succ, List.cons_append, List.cons_append]
    rw [show (' ' :: (List.replicate j ' ' ++ value ++ ['\n'])) =
      [] ++ ' ' :: (List.replicate j ' ' ++ value ++ ['\n']) from rfl]
    rw [splitBy_getLastD_append _ ' ' (by decide) [] _]
    exact ih

lemma clean_line (key value : List Char) (k : Nat) (hv : value ≠ [])
    (hvw : ∀ c ∈ value, c.isWhitespace = false) :
    clean (key ++ List.replicate (k + 1) ' ' ++ value ++ ['\n']) = pyFloat value := by
  unfold clean
  have hdecomp : key ++ List.replicate (k + 1) ' ' ++ value ++ ['\n'] =
      key ++ ' ' :: (List.replicate k ' ' ++ value ++ ['\n']) := by
    rw [List.replicate_succ]
    simp [List.append_assoc]
  rw [hdecomp]
  rw [splitBy_getLastD_append _ ' ' (by decide) key _]
  rw [splitBy_space_gap value hvw k]
  rw [show pyFloat (trimChars (value ++ ['\n'])) = pyFloat (value ++ ['\n']) from by
    unfold pyFloat
    rw [show trimChars (trimChars (value ++ ['\n'])) = trimChars (value ++ ['\n']) from by
      rw [trimChars_append_nl hv hvw]
      rw [trimChars_of_no_ws hvw]]]
  unfold pyFloat
  rw [trimChars_append_nl hv hvw, trimChars_of_no_ws hvw]

lemma filter_replicate_nil (j : Nat) :
    (List.replicate j ([] : List Char)).filter (· ≠ []) = [] := by
  induction j with
  | zero => rfl
  | succ j ih => simp [List.replicate_succ, List.filter_cons, ih]

lemma no_ws_decide {t : List Char} (hw : ∀ c ∈ t, c.isWhitespace = false) :
    ∀ c ∈ t, (c.isWhitespace : Bool) = false := hw

lemma splitBy_ws_gap (value : List Char) (hvw : ∀ c ∈ value, c.isWhitespace = false) :
    ∀ j, splitBy (·.isWhitespace) (List.replicate j ' ' ++ value ++ ['\n'])
      = List.replicate j [] ++ [value, []] := by
  intro j
  induction j with
  | zero =>
    simp only [List.replicate_zero, List.nil_append]
    rw [show value ++ ['\n'] = value ++ '\n' :: [] from rfl]
    rw [splitBy_append_no_sep _ '\n' hvw (by decide) []]
    rfl
  | succ j ih =>
    rw [List.replicate_succ, List.cons_append, List.cons_append]
    rw [show splitBy (·.isWhitespace) (' ' :: (List.replicate j ' ' ++ value ++ ['\n']))
      = [] :: splitBy (·.isWhitespace) (List.replicate j ' ' ++ value ++ ['\n']) from by
      simp [splitBy]]
    rw [ih, List.replicate_succ, List.cons_append]

lemma spec_line (key value : List Char) (k : Nat)
    (hk : key ≠ []) (hkw : ∀ c ∈ key, c.isWhitespace = false)
    (hv : value ≠ []) (hvw : ∀ c ∈ value, c.isWhitespace = false) :
    specHeaderValue (key ++ List.replicate (k + 1) ' ' ++ value ++ ['\n']) = pyFloat value := by
  unfold specHeaderValue wsTokens
  have hdecomp : key ++ List.replicate (k + 1) ' ' ++ value ++ ['\n'] =
      key ++ ' ' :: (List.replicate k ' ' ++ value ++ ['\n']) := by
    rw [List.replicate_succ]
    simp [List.append_assoc]
  rw [hdecomp]
  rw [splitBy_append_no_sep _ ' ' hkw (by decide) _]
  rw [splitBy_ws_gap value hvw k]
  rw [List.filter_cons, List.filter_append]
  rw [filter_replicate_nil k]
  simp only [List.nil_append]
  have hkk : (decide (key ≠ [])) = true := by simp [hk]
  rw [hkk, if_pos rfl]
  have hfv : ([value, ([] : List Char)]).filter (· ≠ []) = [value] := by
    simp [List.filter_cons, hv]
  rw [hfv, List.getLastD_cons, getLastD_singleton]

lemma wsTokens_joinSpace : ∀ (toks : List (List Char)),
    (∀ t ∈ toks, t ≠ []) → (∀ t ∈ toks, ∀ c ∈ t, c.isWhitespace = false) →
    wsTokens (joinSpace toks ++ ['\n']) = toks := by
  intro toks
  induction toks with
  | nil =>
    intro _ _
    rw [show joinSpace [] ++ ['\n'] = ['\n'] from rfl]
    rw [wsTokens]
    rw [show splitBy (·.isWhitespace) ['\n'] = [[], []] from by decide]
    rfl
  | cons t ts ih =>
    intro hne hnw
    cases ts with
    | nil =>
      rw [show joinSpace [t] = t from rfl]
      rw [wsTokens]
      rw [show t ++ ['\n'] = t ++ '\n' :: [] from rfl]
      rw [splitBy_append_no_sep _ '\n' (hnw t (by simp)) (by decide) []]
      rw [List.filter_cons]
      have htt : (decide (t ≠ [])) = true := by simp [hne t (by simp)]
      rw [htt, if_pos rfl]
      rfl
    | cons t2 ts2 =>
      rw [show joinSpace (t :: t2 :: ts2) = t ++ ' ' :: joinSpace (t2 :: ts2) from rfl]
      rw [wsTokens, List.append_assoc, List.cons_append]
      rw [splitBy_append_no_sep _ ' ' (hnw t (by simp)) (by decide) _]
      rw [List.filter_cons]
      have htt : (decide (t ≠ [])) = true := by simp [hne t (by simp)]
      rw [htt, if_pos rfl]
      have := ih (fun x hx => hne x (by simp [hx])) (fun x hx => hnw x (by simp [hx]))
      rw [wsTokens] at this
      rw [this]

/-! ### Claim C6: header parsing versus the last whitespace-delimited token -/

/-- A header line shaped as the ASCII-grid writer produces it: a non-empty
whitespace-free key, at least one space, a non-empty whitespace-free value,
and the terminating newline with no trailing blanks. -/
def HeaderLineWF (l : List Char) : Prop :=
  ∃ key k value, key ≠ [] ∧ (∀ c ∈ key, c.isWhitespace = false) ∧
    value ≠ [] ∧ (∀ c ∈ value, c.isWhitespace = false) ∧
    l = key ++ List.replicate (k + 1) ' ' ++ value ++ ['\n']

lemma clean_eq_spec_of_wf {l : List Char} (h : HeaderLineWF l) :
    clean l = specHeaderValue l := by
  obtain ⟨key, k, value, hk, hkw, hv, hvw, rfl⟩ := h
  rw [clean_line key value k hv hvw, spec_line key value k hk hkw hv hvw]

/-- A six-line header whose first line carries a single trailing space
before its newline; the last whitespace-delimited token of that line is
still the numeral. -/
def headerBadFile : List (List Char) :=
  [ "ncols 983 \n".toList, "nrows 3\n".toList, "xllcorner 0\n".toList,
    "yllcorner 0\n".toList, "cellsize 1\n".toList, "NODATA_value -9999\n".toList ]

/-- Claim C6, counterexample: on a header line with a trailing blank before
the newline, the code splits on single spaces, takes the fragment holding
only the newline, strips it to the empty string and fails, while the
last-whitespace-delimited-token reading of the specification extracts 983.
So `Decode` does not parse the header by taking the last
whitespace-delimited token of each line. -/
theorem c6_counterexample :
    parse_headers headerBadFile = none ∧
    optMapM (fun n => specHeaderValue (headerBadFile.getD n [])) (List.range header_size) =
      some [983, 3, 0, 0, 1, -9999] := by decide

/-- Claim C6 (amended): the header parser takes the last single-space-split
fragment of each of the six lines, strips it and reads it as a float; on
lines with no trailing blanks, where the space-split fragment boundaries
and whitespace-token boundaries agree (as in every line the ASCII-grid
writer emits), this coincides with taking the last whitespace-delimited
token of the line as the numeric value. -/
theorem c6_amended (F : List (List Char))
    (h : ∀ i < header_size, HeaderLineWF (F.getD i [])) :
    parse_headers F =
      optMapM (fun n => specHeaderValue (F.getD n [])) (List.range header_size) := by
  unfold parse_headers
  have h6 : List.range header_size = [0, 1, 2, 3, 4, 5] := rfl
  rw [h6]
  have e0 := clean_eq_spec_of_wf (h 0 (by decide))
  have e1 := clean_eq_spec_of_wf (h 1 (by decide))
  have e2 := clean_eq_spec_of_wf (h 2 (by decide))
  have e3 := clean_eq_spec_of_wf (h 3 (by decide))
  have e4 := clean_eq_spec_of_wf (h 4 (by decide))
  have e5 := clean_eq_spec_of_wf (h 5 (by decide))
  simp only [optMapM, e0, e1, e2, e3, e4, e5]

/-- A well-formed six-line header used to instantiate the amended C6. -/
def headerGoodFile : List (List Char) :=
  [ "ncols 2\n".toList, "nrows 2\n".toList, "xllcorner 0\n".toList,
    "yllcorner 0\n".toList, "cellsize 1\n".toList, "NODATA_value -9999\n".toList ]

/-- Witness for the amended C6 at a concrete six-line header. -/
theorem c6_amended_witness :
    parse_headers headerGoodFile =
      optMapM (fun n => specHeaderValue (headerGoodFile.getD n []))
        (List.range header_size) :=
  c6_amended headerGoodFile (by
    intro i hi
    have hi6 : i < 6 := hi
    interval_cases i
    · exact ⟨"ncols".toList, 0, "2".toList, by decide, by decide, by decide, by decide,
        by decide⟩
    · exact ⟨"nrows".toList, 0, "2".toList, by decide, by decide, by decide, by decide,
        by decide⟩
    · exact ⟨"xllcorner".toList, 0, "0".toList, by decide, by decide, by decide, by decide,
        by decide⟩
    · exact ⟨"yllcorner".toList, 0, "0".toList, by decide, by decide, by decide, by decide,
        by decide⟩
    · exact ⟨"cellsize".toList, 0, "1".toList, by decide, by decide, by decide, by decide,
        by decide⟩
    · exact ⟨"NODATA_value".toList, 0, "-9999".toList, by decide, by decide, by decide,
        by decide, by decide⟩)

/-! ### Claim C7: which malformed inputs make Decode fail -/

lemma optMapM_eq_none_iff {α β : Type} (f : α → Option β) :
    ∀ l : List α, optMapM f l = none ↔ ∃ a ∈ l, f a = none := by
  intro l
  induction l with
  | nil => simp [optMapM]
  | cons a t ih =>
    simp only [optMapM]
    cases hfa : f a with
    | none =>
      constructor
      · intro _
        exact ⟨a, by simp, hfa⟩
      · intro _
        rfl
    | some b =>
      cases hmt : optMapM f t with
      | none =>
        constructor
        · intro _
          obtain ⟨x, hx, hfx⟩ := ih.mp hmt
          exact ⟨x, by simp [hx], hfx⟩
        · intro _
          rfl
      | some bs =>
        constructor
        · intro habs
          exact absurd habs (by simp)
        · rintro ⟨x, hx, hfx⟩
          rcases List.mem_cons.mp hx with rfl | hx
          · rw [hfa] at hfx
            exact absurd hfx (by simp)
          · have := ih.mpr ⟨x, hx, hfx⟩
            rw [this] at hmt
            exact absurd hmt (by simp)

lemma optMapM_some_length {α β : Type} (f : α → Option β) :
    ∀ (l : List α) (bs : List β), optMapM f l = some bs → bs.length = l.length := by
  intro l
  induction l with
  | nil =>
    intro bs h
    simp only [optMapM] at h
    cases h
    rfl
  | cons a t ih =>
    intro bs h
    simp only [optMapM] at h
    cases hfa : f a with
    | none =>
      rw [hfa] at h
      cases h
    | some b =>
      rw [hfa] at h
      cases hmt : optMapM f t with
      | none =>
        rw [hmt] at h
        cases h
      | some cs =>
        rw [hmt] at h
        cases h
        simp [ih cs hmt]

lemma parse_headers_eq_none_iff (F : List (List Char)) :
    parse_headers F = none ↔ ∃ i < header_size, clean (F.getD i []) = none := by
  unfold parse_headers
  rw [optMapM_eq_none_iff]
  constructor
  · rintro ⟨i, hi, h⟩
    exact ⟨i, List.mem_range.mp hi, h⟩
  · rintro ⟨i, hi, h⟩
    exact ⟨i, List.mem_range.mpr hi, h⟩

/-- The declarative description of a data section `numpy.loadtxt` rejects:
some token of some non-blank line fails numeric parsing, or two non-blank
lines carry different numbers of tokens. -/
def MatrixMalformed (ls : List (List Char)) : Prop :=
  (∃ ts ∈ rowsOf ls, ∃ t ∈ ts, pyFloat t = none) ∨
  (∃ ts1 ∈ rowsOf ls, ∃ ts2 ∈ rowsOf ls, ts1.length ≠ ts2.length)

lemma loadtxt_eq_none_iff (ls : List (List Char)) :
    loadtxt ls = none ↔ MatrixMalformed ls := by
  unfold loadtxt MatrixMalformed
  by_cases hall : (rowsOf ls).all (fun ts => ts.length = ((rowsOf ls).headD []).length)
  · rw [if_pos hall]
    rw [optMapM_eq_none_iff]
    constructor
    · rintro ⟨ts, hts, hinner⟩
      obtain ⟨t, ht, hft⟩ := (optMapM_eq_none_iff pyFloat ts).mp hinner
      exact Or.inl ⟨ts, hts, t, ht, hft⟩
    · rintro (⟨ts, hts, t, ht, hft⟩ | ⟨ts1, h1, ts2, h2, hne⟩)
      · exact ⟨ts, hts, (optMapM_eq_none_iff pyFloat ts).mpr ⟨t, ht, hft⟩⟩
      · rw [List.all_eq_true] at hall
        have e1 := of_decide_eq_true (hall ts1 h1)
        have e2 := of_decide_eq_true (hall ts2 h2)
        exact absurd (e1.trans e2.symm) hne
  · rw [if_neg hall]
    constructor
    · intro _
      rw [List.all_eq_true] at hall
      push_neg at hall
      obtain ⟨ts, hts, hlen⟩ := hall
      have hne : (rowsOf ls) ≠ [] := by
        intro habs
        rw [habs] at hts
        exact absurd hts (List.not_mem_nil ts)
      have hhead : (rowsOf ls).headD [] ∈ rowsOf ls := by
        cases h : rowsOf ls with
        | nil => exact absurd h hne
        | cons a t => simp
      refine Or.inr ⟨ts, hts, (rowsOf ls).headD [], hhead, ?_⟩
      simpa using hlen
    · intro _
      rfl

lemma read_eq_none_iff_parts (F : List (List Char)) :
    elevation.read F = none ↔
      loadtxt (F.drop header_size) = none ∨ parse_headers F = none := by
  unfold elevation.read
  cases hl : loadtxt (F.drop header_size) with
  | none => simp
  | some data =>
    cases hp : parse_headers F with
    | none => simp
    | some l =>
      have hlen : l.length = 6 := by
        have := optMapM_some_length _ _ _ hp
        simpa using this
      obtain ⟨a, b, c, d, e, f2, rfl⟩ :
          ∃ a b c d e f2, l = [a, b, c, d, e, f2] := by
        match l, hlen with
        | [a, b, c, d, e, f2], _ => exact ⟨a, b, c, d, e, f2, rfl⟩
      simp

/-- A textual grid declaring `nrows 3` and `ncols 2` over a 2-by-2 data
section. -/
def mismatchFile : List (List Char) :=
  [ "ncols 2\n".toList, "nrows 3\n".toList, "xllcorner 0\n".toList,
    "yllcorner 0\n".toList, "cellsize 1\n".toList, "NODATA_value -9999\n".toList,
    "1 2\n".toList, "3 4\n".toList ]

/-- Claim C7, counterexample: a textual grid whose header declares a 3-row,
2-column matrix over a 2-by-2 data section.  `Decode` succeeds and returns
an `ElevationSurface` even though the matrix is not the declared
`nrows` by `ncols`, so the claim that such inputs make Decode fail is
false.  (A file with the wrong header line count whose sixth line still
ends in a numeric token is accepted the same way.) -/
theorem c7_counterexample :
    elevation.read mismatchFile = some ⟨2, 3, 0, 0, 1, -9999, [[1, 2], [3, 4]]⟩ ∧
    elevation.read mismatchFile ≠ none := by decide

/-- Claim C7 (amended): the textual stage of Decode fails exactly when one
of the six header lines yields a token that does not parse as a number, or
the data section is malformed in the loadtxt sense: a token of a non-blank
data line fails numeric parsing, or two non-blank data lines have different
token counts.  Decode performs no validation of the header line count as
such and never compares the matrix shape against the declared
`nrows`/`ncols`. -/
theorem c7_amended (F : List (List Char)) :
    elevation.read F = none ↔
      (∃ i < header_size, clean (F.getD i []) = none) ∨
      MatrixMalformed (F.drop header_size) := by
  rw [read_eq_none_iff_parts, loadtxt_eq_none_iff, parse_headers_eq_none_iff]
  constructor
  · rintro (h | h)
    · exact Or.inr h
    · exact Or.inl h
  · rintro (h | h)
    · exact Or.inr h
    · exact Or.inl h

/-! ### Claim C2: the validity predicate -/

lemma is_valid_iff (e : Elevation) (r c : Int) (v : Int) :
    (Cell.mk r c v e).is_valid = true ↔
      (0 ≤ r ∧ (r : ℚ) < e.nrows ∧ 0 ≤ c ∧ (c : ℚ) < e.ncols ∧
        pyLookup e.data r c ≠ e.nodata_value) := by
  unfold Cell.is_valid
  simp only [Bool.and_eq_true, decide_eq_true_eq]
  tauto

/-- Claim C2: for every surface and integer coordinate pair, `IsValid`
(`Cell.is_valid`) holds exactly when the row is within `[0, nrows)`, the
column is within `[0, ncols)`, and the stored datapoint differs from the
surface sentinel; out-of-bounds coordinates and sentinel-valued cells are
both invalid. -/
theorem c2_is_valid (e : Elevation) (r c : Int) (v : Int) :
    (Cell.mk r c v e).is_valid = true ↔
      (0 ≤ r ∧ (r : ℚ) < e.nrows ∧ 0 ≤ c ∧ (c : ℚ) < e.ncols ∧
        pyLookup e.data r c ≠ e.nodata_value) :=
  is_valid_iff e r c v

/-! ### Claim C5: appending rows to the grid buffer -/

/-- Claim C5, evaluation at the failing input: starting from the initial
1-by-0 grid, appending the all-zero row `[0, 0]` and then the
wrong-width row `[1, 2, 3]` does not fail; because `data.any()` is false on
an all-zero array, the second append runs with `axis=1` and silently widens
the single stored row to `[0, 0, 1, 2, 3]`.  The documented behaviour
(same-width enforcement with an error on mismatch) does not hold. -/
theorem c5_zero_row_append :
    add_row [[]] [0, 0] = some [[0, 0]] ∧
    add_row [[0, 0]] [1, 2, 3] = some [[0, 0, 1, 2, 3]] := by decide

/-! ### Claim C1: the direction-resolution sum -/

lemma tie_sum_cons (m n : Cell) (rest : List Cell) :
    tie_sum m (n :: rest) =
      if cell_elevation n = cell_elevation m then n.value + tie_sum m rest else 0 := rfl

lemma tie_sum_eq (m : Cell) : ∀ rest : List Cell,
    (∀ x ∈ rest, cell_elevation m ≤ cell_elevation x) →
    rest.Pairwise cellLe →
    tie_sum m rest =
      ((rest.filter (fun c => cell_elevation c = cell_elevation m)).map Cell.value).sum := by
  intro rest
  induction rest with
  | nil =>
    intro _ _
    rfl
  | cons n t ih =>
    intro hall hpw
    rw [List.pairwise_cons] at hpw
    by_cases he : cell_elevation n = cell_elevation m
    · rw [tie_sum_cons, if_pos he]
      rw [List.filter_cons, if_pos (by simp [he])]
      rw [List.map_cons, List.sum_cons]
      rw [ih (fun x hx => hall x (by simp [hx])) hpw.2]
    · rw [tie_sum_cons, if_neg he]
      rw [List.filter_cons, if_neg (by simp [he])]
      have hnone : t.filter (fun c => cell_elevation c = cell_elevation m) = [] := by
        rw [List.filter_eq_nil_iff]
        intro x hx
        simp only [decide_eq_true_eq]
        intro habs
        have h1 : cell_elevation m ≤ cell_elevation n := hall n (by simp)
        have h2 : cell_elevation n ≤ cell_elevation x := hpw.1 x hx
        exact he (le_antisymm (habs ▸ h2) h1)
      rw [hnone]
      rfl

lemma process_element_char (l : List Cell) (m : ℚ)
    (hmem : ∃ c ∈ l, cell_elevation c = m)
    (hmin : ∀ c ∈ l, m ≤ cell_elevation c) :
    process_element l =
      some (((l.filter (fun c => cell_elevation c = m)).map Cell.value).sum) := by
  have hperm := List.perm_insertionSort cellLe l
  have hsorted := List.sorted_insertionSort cellLe l
  obtain ⟨c0, hc0l, hc0⟩ := hmem
  cases hs : List.insertionSort cellLe l with
  | nil =>
    have hlen := hperm.length_eq
    rw [hs] at hlen
    have : l = [] := List.eq_nil_of_length_eq_zero (by simpa using hlen.symm)
    rw [this] at hc0l
    exact absurd hc0l (List.not_mem_nil c0)
  | cons m0 rest =>
    have hpermS : (m0 :: rest).Perm l := hs ▸ hperm
    have hm0_mem : m0 ∈ l := hpermS.mem_iff.mp (by simp)
    have hsorted2 : (m0 :: rest).Pairwise cellLe := hs ▸ hsorted
    rw [List.pairwise_cons] at hsorted2
    have hm0 : cell_elevation m0 = m := by
      refine le_antisymm ?_ (hmin m0 hm0_mem)
      have hc0s : c0 ∈ m0 :: rest := hpermS.mem_iff.mpr hc0l
      rcases List.mem_cons.mp hc0s with rfl | hc0r
      · rw [hc0]
      · have hle : cellLe m0 c0 := hsorted2.1 c0 hc0r
        rw [← hc0]
        exact hle
    unfold process_element
    rw [hs]
    show some (m0.value + tie_sum m0 rest) = _
    rw [tie_sum_eq m0 rest (fun x hx => hsorted2.1 x hx) hsorted2.2]
    rw [hm0]
    have hpf : ((l.filter (fun c => cell_elevation c = m)).map Cell.value).sum =
        (((m0 :: rest).filter (fun c => cell_elevation c = m)).map Cell.value).sum :=
      (List.Perm.sum_eq (List.Perm.map Cell.value
        (List.Perm.filter _ hpermS))).symm
    rw [hpf]
    rw [List.filter_cons, if_pos (by simp [hm0])]
    rw [List.map_cons, List.sum_cons]

/-- Claim C1: on a non-empty candidate list with minimum elevation `m`,
`ResolveDirection` (`Direction._process_element`) returns the sum of the
direction codes of exactly the candidates whose stored elevation equals
`m` (exact equality, no tolerance).  In particular with all elevations
distinct it returns the single lowest candidate code, and with exactly two
minimum-tied candidates carrying codes `a` and `b` it returns `a + b`. -/
theorem c1_resolve_direction (l : List Cell) (m : ℚ)
    (hmem : ∃ c ∈ l, cell_elevation c = m)
    (hmin : ∀ c ∈ l, m ≤ cell_elevation c) :
    process_element l =
      some (((l.filter (fun c => cell_elevation c = m)).map Cell.value).sum) :=
  process_element_char l m hmem hmin

/-- A small demonstration surface for concrete witnesses. -/
def eDemo : Elevation := ⟨2, 2, 0, 0, 1, -9999, [[10, 7], [8, 5]]⟩

/-- Witness for C1 at a concrete two-candidate list with distinct
elevations: the lowest cell carries code 16 and the resolved value is 16. -/
theorem c1_witness :
    process_element [Cell.mk 0 0 32 eDemo, Cell.mk 1 1 16 eDemo] = some 16 :=
  (c1_resolve_direction [Cell.mk 0 0 32 eDemo, Cell.mk 1 1 16 eDemo] 5
    (by decide) (by decide)).trans (by decide)

/-! ### The run loop: positivity of resolved values and grid assembly -/

lemma tie_sum_nonneg (m : Cell) : ∀ rest : List Cell,
    (∀ x ∈ rest, 0 ≤ x.value) → 0 ≤ tie_sum m rest := by
  intro rest
  induction rest with
  | nil =>
    intro _
    exact le_refl 0
  | cons n t ih =>
    intro h
    rw [tie_sum_cons]
    split
    · have h1 : 0 ≤ n.value := h n (by simp)
      have h2 := ih (fun x hx => h x (by simp [hx]))
      omega
    · exact le_refl 0

lemma process_element_pos (l : List Cell) (v : Int)
    (hvals : ∀ c ∈ l, 1 ≤ c.value) (h : process_element l = some v) : 1 ≤ v := by
  cases hs : List.insertionSort cellLe l with
  | nil =>
    have hnone : process_element l = none := by
      unfold process_element
      rw [hs]
    rw [hnone] at h
    cases h
  | cons m0 rest =>
    have hp : process_element l = some (m0.value + tie_sum m0 rest) := by
      unfold process_element
      rw [hs]
    rw [hp] at h
    have hv := Option.some.inj h
    have hperm : (m0 :: rest).Perm l := hs ▸ List.perm_insertionSort cellLe l
    have h1 : 1 ≤ m0.value := hvals m0 (hperm.mem_iff.mp (by simp))
    have h2 : 0 ≤ tie_sum m0 rest := tie_sum_nonneg m0 rest (fun x hx => by
      have hxl : x ∈ l := hperm.mem_iff.mp (by simp [hx])
      have := hvals x hxl
      omega)
    omega

lemma neighbours_value_pos (e : Elevation) (row col : Int) :
    ∀ cell ∈ neighbours e row col, 1 ≤ cell.value := by
  intro cell hc
  simp only [neighbours, List.mem_cons, List.not_mem_nil, or_false] at hc
  rcases hc with rfl | rfl | rfl | rfl | rfl | rfl | rfl | rfl <;> norm_num

lemma directionValue_ne_zero (e : Elevation) (row col : Int) :
    directionValue e row col ≠ 0 := by
  unfold directionValue
  cases hpe : process_element ((neighbours e row col).filter Cell.is_valid) with
  | none => exact (by decide : nodata ≠ (0 : ℚ))
  | some v =>
    have hv : 1 ≤ v := process_element_pos _ v
      (fun c hc => neighbours_value_pos e row col c (List.mem_filter.mp hc).1) hpe
    show (v : ℚ) ≠ 0
    intro habs
    have hz : v = 0 := by exact_mod_cast habs
    omega

lemma directionRow_length (e : Elevation) (row : Nat) :
    (directionRow e row).length = ncBound e := by
  simp [directionRow]

lemma add_row_first (row : List ℚ) : add_row [[]] row = some [row] := rfl

lemma add_row_stack (data : List (List ℚ)) (row : List ℚ)
    (hany : dataAny data = true)
    (hlen : data.all (fun r => r.length = row.length) = true) :
    add_row data row = some (data ++ [row]) := by
  unfold add_row npAppendRows
  rw [hany, if_pos rfl, if_pos hlen]

lemma dataAny_of_rows (e : Elevation) (k : Nat) (hk : 0 < k) (hc : 0 < ncBound e) :
    dataAny ((List.range k).map (directionRow e)) = true := by
  unfold dataAny
  rw [List.any_eq_true]
  refine ⟨directionRow e 0, List.mem_map_of_mem _ (List.mem_range.mpr hk), ?_⟩
  rw [List.any_eq_true]
  refine ⟨directionValue e ((0 : Nat) : Int) ((0 : Nat) : Int), ?_, ?_⟩
  · unfold directionRow
    exact List.mem_map_of_mem _ (List.mem_range.mpr hc)
  · exact decide_eq_true (directionValue_ne_zero e _ _)

lemma runRows_append (e : Elevation) : ∀ (l1 l2 : List Nat) (data : List (List ℚ)),
    runRows e data (l1 ++ l2) =
      match runRows e data l1 with
      | none => none
      | some d => runRows e d l2 := by
  intro l1
  induction l1 with
  | nil =>
    intro l2 data
    rfl
  | cons r rs ih =>
    intro l2 data
    simp only [List.cons_append, runRows]
    cases h : add_row data (directionRow e r) with
    | none => rfl
    | some d => exact ih l2 d

lemma run_eq (e : Elevation) (hr : 0 < nrBound e) (hc : 0 < ncBound e) :
    run e = some ((List.range (nrBound e)).map (directionRow e)) := by
  unfold run
  suffices h : ∀ n, 0 < n →
      runRows e [[]] (List.range n) = some ((List.range n).map (directionRow e)) from
    h _ hr
  intro n hn
  induction n with
  | zero => omega
  | succ k ih =>
    by_cases hk : k = 0
    · subst hk
      rw [show List.range 1 = [0] from rfl]
      show runRows e [[]] [0] = _
      simp only [runRows]
      rw [add_row_first (directionRow e 0)]
      rfl
    · have hkpos : 0 < k := Nat.pos_of_ne_zero hk
      rw [List.range_succ, runRows_append, ih hkpos]
      show runRows e ((List.range k).map (directionRow e)) [k] = _
      simp only [runRows]
      rw [add_row_stack _ _ (dataAny_of_rows e k hkpos hc) (by
        rw [List.all_eq_true]
        intro row hrow
        rw [List.mem_map] at hrow
        obtain ⟨i, _, rfl⟩ := hrow
        simp [directionRow_length])]
      show some (((List.range k).map (directionRow e)) ++ [directionRow e k]) =
        some ((List.range k ++ [k]).map (directionRow e))
      rw [List.map_append]
      rfl

lemma getD_map_range {α : Type} (f : Nat → α) (n r : Nat) (hr : r < n) (d : α) :
    ((List.range n).map f).getD r d = f r := by
  rw [List.getD_eq_getElem?_getD, List.getElem?_map, List.getElem?_range hr]
  rfl

lemma run_entry (e : Elevation) (r c : Nat) (hr : r < nrBound e) (hc : c < ncBound e)
    (out : List (List ℚ)) (ho : run e = some out) :
    (out.getD r []).getD c 0 = directionValue e (r : Int) (c : Int) := by
  have hre := run_eq e (by omega) (by omega)
  rw [ho] at hre
  have hout : out = (List.range (nrBound e)).map (directionRow e) := Option.some.inj hre
  subst hout
  rw [getD_map_range (directionRow e) _ r hr]
  unfold directionRow
  rw [getD_map_range _ _ c hc]

/-! ### Claim C3: cells with no valid neighbour get the output sentinel -/

/-- Claim C3: for every surface and in-range cell, if none of the eight
neighbour positions is valid (out of bounds or holding the input sentinel),
the value the completed run stores for that cell is the fixed output
sentinel -9999. -/
theorem c3_no_valid_neighbour (e : Elevation) (r c : Nat)
    (hr : r < nrBound e) (hc : c < ncBound e)
    (hn : ∀ cell ∈ neighbours e (r : Int) (c : Int), cell.is_valid = false)
    (out : List (List ℚ)) (ho : run e = some out) :
    (out.getD r []).getD c 0 = -9999 := by
  rw [run_entry e r c hr hc out ho]
  unfold directionValue
  have hfil : (neighbours e (r : Int) (c : Int)).filter Cell.is_valid = [] := by
    rw [List.filter_eq_nil_iff]
    intro cell hcell
    rw [hn cell hcell]
    simp
  rw [hfil]
  rfl

/-- A single-cell surface: all eight neighbour positions of its only cell
are out of bounds. -/
def e1x1 : Elevation := ⟨1, 1, 0, 0, 1, -9999, [[5]]⟩

/-- Witness for C3 on the single-cell surface. -/
theorem c3_witness : (([[(-9999 : ℚ)]]).getD 0 []).getD 0 0 = -9999 :=
  c3_no_valid_neighbour e1x1 0 0 (by decide) (by decide) (by decide) [[-9999]] (by decide)

/-! ### Claim C4: the 3-by-3 fixture -/

/-- The 3-by-3 elevation surface of the specification fixture. -/
def e3x3 : Elevation := ⟨3, 3, 0, 0, 1, -9999, [[10, 10, 10], [10, 5, 10], [10, 10, 10]]⟩

/-- Claim C4: on the 3-by-3 fixture the run output has 255 at the center
(all eight neighbours valid and tied at elevation 10, so every direction
code is accumulated: 32+64+128+16+1+8+4+2), and every border cell carries
the code of its single lowest in-bounds neighbour (the center at elevation
5), per the offset table. -/
theorem c4_concrete_scenario :
    run e3x3 = some [[2, 4, 8], [1, 255, 16], [128, 64, 32]] := by decide

/-! ### Claim C9: the output of a cell ignores that cell itself -/

/-- Overwrites one entry of a matrix, in-range positions only. -/
def setEntry (d : List (List ℚ)) (r c : Nat) (w : ℚ) : List (List ℚ) :=
  d.set r ((d.getD r []).set c w)

lemma getD_set_ne {α : Type} (l : List α) (i j : Nat) (a d : α) (hij : i ≠ j) :
    (l.set i a).getD j d = l.getD j d := by
  rw [List.getD_eq_getElem?_getD, List.getD_eq_getElem?_getD, List.getElem?_set_ne hij]

lemma pyLookup_setEntry (d : List (List ℚ)) (r c : Nat) (w : ℚ) (x y : Int)
    (hx : 0 ≤ x) (hy : 0 ≤ y) (hne : (x, y) ≠ ((r : Int), (c : Int))) :
    pyLookup (setEntry d r c w) x y = pyLookup d x y := by
  unfold pyLookup setEntry
  by_cases hxr : x.toNat = r
  · have hyc : y.toNat ≠ c := by
      intro habs
      apply hne
      have hxx : x = (r : Int) := by omega
      have hyy : y = (c : Int) := by omega
      rw [hxx, hyy]
    rw [hxr]
    by_cases hrlen : r < d.length
    · rw [List.getD_eq_getElem?_getD (d.set r _), List.getElem?_set_self hrlen]
      show ((d.getD r []).set c w).getD y.toNat 0 = (d.getD r []).getD y.toNat 0
      exact getD_set_ne _ c y.toNat w 0 (fun h => hyc h.symm)
    · rw [List.set_eq_of_length_le (by omega)]
  · rw [getD_set_ne d r x.toNat _ [] (fun h => hxr h.symm)]

lemma is_valid_setEntry (e : Elevation) (r c : Nat) (w : ℚ) (x y : Int) (v : Int)
    (hne : (x, y) ≠ ((r : Int), (c : Int))) :
    (Cell.mk x y v { e with data := setEntry e.data r c w }).is_valid =
      (Cell.mk x y v e).is_valid := by
  by_cases hx : 0 ≤ x
  · by_cases hy : 0 ≤ y
    · simp [Cell.is_valid, pyLookup_setEntry e.data r c w x y hx hy hne]
    · simp [Cell.is_valid, hy]
  · simp [Cell.is_valid, hx]

lemma cell_elevation_setEntry (e : Elevation) (r c : Nat) (w : ℚ) (x y : Int) (v : Int)
    (hx : 0 ≤ x) (hy : 0 ≤ y) (hne : (x, y) ≠ ((r : Int), (c : Int))) :
    cell_elevation (Cell.mk x y v { e with data := setEntry e.data r c w }) =
      cell_elevation (Cell.mk x y v e) := by
  show pyLookup (setEntry e.data r c w) x y = pyLookup e.data x y
  exact pyLookup_setEntry e.data r c w x y hx hy hne

/-- The pair of direction code and elevation of a cell: the only data the
direction resolution ever inspects. -/
def cellKey (c : Cell) : Int × ℚ := (c.value, cell_elevation c)

lemma map_elev_of_map_key {l1 l2 : List Cell} (h : l1.map cellKey = l2.map cellKey) :
    l1.map cell_elevation = l2.map cell_elevation := by
  have h2 := congrArg (List.map Prod.snd) h
  rw [List.map_map, List.map_map] at h2
  exact h2

lemma exists_min_elev : ∀ l : List Cell, l ≠ [] →
    ∃ m, (∃ c ∈ l, cell_elevation c = m) ∧ ∀ c ∈ l, m ≤ cell_elevation c := by
  intro l
  induction l with
  | nil =>
    intro h
    exact absurd rfl h
  | cons a t ih =>
    intro _
    cases t with
    | nil =>
      refine ⟨cell_elevation a, ⟨a, by simp, rfl⟩, ?_⟩
      intro c hc
      rcases List.mem_cons.mp hc with rfl | hc
      · exact le_refl _
      · exact absurd hc (List.not_mem_nil c)
    | cons b t2 =>
      obtain ⟨m, hmem, hmin⟩ := ih (by simp)
      by_cases hc : cell_elevation a ≤ m
      · refine ⟨cell_elevation a, ⟨a, by simp, rfl⟩, ?_⟩
        intro c hcm
        rcases List.mem_cons.mp hcm with rfl | hcm
        · exact le_refl _
        · exact le_trans hc (hmin c hcm)
      · obtain ⟨c0, hc0, hc0e⟩ := hmem
        refine ⟨m, ⟨c0, by simp [hc0], hc0e⟩, ?_⟩
        intro c hcm
        rcases List.mem_cons.mp hcm with rfl | hcm
        · exact le_of_lt (lt_of_not_le hc)
        · exact hmin c hcm

lemma filter_value_congr (m : ℚ) : ∀ l1 l2 : List Cell,
    l1.map cellKey = l2.map cellKey →
    (l1.filter (fun c => cell_elevation c = m)).map Cell.value =
      (l2.filter (fun c => cell_elevation c = m)).map Cell.value := by
  intro l1
  induction l1 with
  | nil =>
    intro l2 h
    cases l2 with
    | nil => rfl
    | cons b t2 => simp at h
  | cons a t ih =>
    intro l2 h
    cases l2 with
    | nil => simp at h
    | cons b t2 =>
      simp only [List.map_cons, List.cons.injEq] at h
      have hval : a.value = b.value := congrArg Prod.fst h.1
      have hel : cell_elevation a = cell_elevation b := congrArg Prod.snd h.1
      rw [List.filter_cons, List.filter_cons]
      by_cases hcm : cell_elevation a = m
      · rw [if_pos (by simp [hcm]), if_pos (by simp [← hel, hcm])]
        rw [List.map_cons, List.map_cons, hval, ih t2 h.2]
      · rw [if_neg (by simp [hcm]), if_neg (by simp [← hel, hcm])]
        exact ih t2 h.2

lemma process_congr (l1 l2 : List Cell) (h : l1.map cellKey = l2.map cellKey) :
    process_element l1 = process_element l2 := by
  cases l1 with
  | nil =>
    cases l2 with
    | nil => rfl
    | cons b t2 => simp at h
  | cons a t =>
    cases l2 with
    | nil => simp at h
    | cons b t2 =>
      obtain ⟨m, hmem, hmin⟩ := exists_min_elev (a :: t) (by simp)
      have helev := map_elev_of_map_key h
      have hmem2 : ∃ c ∈ b :: t2, cell_elevation c = m := by
        obtain ⟨c1, hc1, hc1e⟩ := hmem
        have : m ∈ (b :: t2).map cell_elevation := by
          rw [← helev]
          exact List.mem_map.mpr ⟨c1, hc1, hc1e⟩
        obtain ⟨c2, hc2, hc2e⟩ := List.mem_map.mp this
        exact ⟨c2, hc2, hc2e⟩
      have hmin2 : ∀ c ∈ b :: t2, m ≤ cell_elevation c := by
        intro c hcm
        have : cell_elevation c ∈ (a :: t).map cell_elevation := by
          rw [helev]
          exact List.mem_map.mpr ⟨c, hcm, rfl⟩
        obtain ⟨c1, hc1, hc1e⟩ := List.mem_map.mp this
        rw [← hc1e]
        exact hmin c1 hc1
      rw [process_element_char _ m hmem hmin, process_element_char _ m hmem2 hmin2]
      rw [filter_value_congr m _ _ h]

/-- Cell construction from an offset-table entry. -/
def mkCell (e : Elevation) (t : Int × Int × Int) : Cell := ⟨t.1, t.2.1, t.2.2, e⟩

/-- The offset table of `Direction.run`, as position-and-code triples. -/
def nbrOffsets (row col : Int) : List (Int × Int × Int) :=
  [ (row - 1, col - 1, 32), (row - 1, col, 64), (row - 1, col + 1, 128),
    (row, col - 1, 16), (row, col + 1, 1),
    (row + 1, col - 1, 8), (row + 1, col, 4), (row + 1, col + 1, 2) ]

lemma neighbours_eq_map (e : Elevation) (row col : Int) :
    neighbours e row col = (nbrOffsets row col).map (mkCell e) := rfl

lemma nbrOffsets_ne_center (row col : Int) :
    ∀ t ∈ nbrOffsets row col, (t.1, t.2.1) ≠ (row, col) := by
  intro t ht
  simp only [nbrOffsets, List.mem_cons, List.not_mem_nil, or_false] at ht
  rcases ht with rfl | rfl | rfl | rfl | rfl | rfl | rfl | rfl <;>
    (intro habs; simp only [Prod.mk.injEq] at habs; omega)

lemma filtered_key_eq (e : Elevation) (r c : Nat) (w : ℚ) :
    ∀ ps : List (Int × Int × Int),
    (∀ t ∈ ps, (t.1, t.2.1) ≠ ((r : Int), (c : Int))) →
    ((ps.map (mkCell { e with data := setEntry e.data r c w })).filter Cell.is_valid).map cellKey =
      ((ps.map (mkCell e)).filter Cell.is_valid).map cellKey := by
  intro ps
  induction ps with
  | nil =>
    intro _
    rfl
  | cons t ts ih =>
    intro hno
    have hne := hno t (by simp)
    have hv := is_valid_setEntry e r c w t.1 t.2.1 t.2.2 hne
    have ihh := ih (fun x hx => hno x (by simp [hx]))
    simp only [List.map_cons, List.filter_cons]
    cases hval : (Cell.mk t.1 t.2.1 t.2.2 e).is_valid with
    | false =>
      rw [show (mkCell { e with data := setEntry e.data r c w } t).is_valid = false from by
        rw [show mkCell { e with data := setEntry e.data r c w } t =
          Cell.mk t.1 t.2.1 t.2.2 { e with data := setEntry e.data r c w } from rfl]
        rw [hv, hval]]
      rw [show (mkCell e t).is_valid = false from by
        rw [show mkCell e t = Cell.mk t.1 t.2.1 t.2.2 e from rfl]
        rw [hval]]
      simp only [Bool.false_eq_true, if_false]
      exact ihh
    | true =>
      rw [show (mkCell { e with data := setEntry e.data r c w } t).is_valid = true from by
        rw [show mkCell { e with data := setEntry e.data r c w } t =
          Cell.mk t.1 t.2.1 t.2.2 { e with data := setEntry e.data r c w } from rfl]
        rw [hv, hval]]
      rw [show (mkCell e t).is_valid = true from by
        rw [show mkCell e t = Cell.mk t.1 t.2.1 t.2.2 e from rfl]
        rw [hval]]
      simp only [if_true]
      rw [List.map_cons, List.map_cons]
      obtain ⟨hx, _, hy, _, _⟩ := (is_valid_iff e t.1 t.2.1 t.2.2).mp hval
      have helev := cell_elevation_setEntry e r c w t.1 t.2.1 t.2.2 hx hy hne
      rw [show cellKey (mkCell { e with data := setEntry e.data r c w } t) =
          cellKey (mkCell e t) from by
        show (t.2.2, cell_elevation (Cell.mk t.1 t.2.1 t.2.2 { e with data := setEntry e.data r c w })) =
          (t.2.2, cell_elevation (Cell.mk t.1 t.2.1 t.2.2 e))
        rw [helev]]
      rw [ihh]

lemma directionValue_setEntry (e : Elevation) (r c : Nat) (w : ℚ) :
    directionValue { e with data := setEntry e.data r c w } (r : Int) (c : Int) =
      directionValue e (r : Int) (c : Int) := by
  have hkeys := filtered_key_eq e r c w (nbrOffsets (r : Int) (c : Int))
    (nbrOffsets_ne_center (r : Int) (c : Int))
  rw [← neighbours_eq_map, ← neighbours_eq_map] at hkeys
  have hpc := process_congr _ _ hkeys
  unfold directionValue
  rw [hpc]

/-- Claim C9 (implicit): for every surface and every in-range cell, the
value the run stores at that cell depends only on the eight neighbour
positions, never on the cell itself: overwriting the cell with any value
(including the input sentinel) leaves the output at that cell unchanged.
In particular a cell whose own elevation is the sentinel still receives a
normal direction code when it has a valid neighbour. -/
theorem c9_center_independent (e : Elevation) (r c : Nat) (w : ℚ)
    (hr : r < nrBound e) (hc : c < ncBound e)
    (o1 o2 : List (List ℚ))
    (h1 : run e = some o1)
    (h2 : run { e with data := setEntry e.data r c w } = some o2) :
    (o1.getD r []).getD c 0 = (o2.getD r []).getD c 0 := by
  rw [run_entry e r c hr hc o1 h1]
  rw [run_entry { e with data := setEntry e.data r c w } r c hr hc o2 h2]
  exact (directionValue_setEntry e r c w).symm

/-- Witness for C9: overwriting the center of the 3-by-3 fixture with the
input sentinel changes every border output but leaves the center output
(255) unchanged. -/
theorem c9_witness :
    (([[2, 4, 8], [1, 255, 16], [128, 64, 32]] : List (List ℚ)).getD 1 []).getD 1 0 =
      (([[5, 27, 20], [198, 255, 108], [65, 177, 80]] : List (List ℚ)).getD 1 []).getD 1 0 :=
  c9_center_independent e3x3 1 1 (-9999) (by decide) (by decide)
    [[2, 4, 8], [1, 255, 16], [128, 64, 32]]
    [[5, 27, 20], [198, 255, 108], [65, 177, 80]]
    (by decide) (by decide)

/-! ### Claim C8: encode/decode round trip -/

lemma pyStrInt_ne_nil (z : Int) : pyStrInt z ≠ [] := by
  unfold pyStrInt
  split
  · simp
  · exact natDigits_ne_nil _

lemma pyStrFloat_ne_nil {q : ℚ} (hq : q.den = 1) : pyStrFloat q ≠ [] := by
  unfold pyStrFloat
  rw [if_pos hq]
  simp

lemma pyStrFloat_no_ws {q : ℚ} (hq : q.den = 1) :
    ∀ c ∈ pyStrFloat q, c.isWhitespace = false := by
  unfold pyStrFloat
  rw [if_pos hq]
  intro c hc
  rw [List.mem_append] at hc
  rcases hc with hc | hc
  · exact pyStrInt_no_ws q.num c hc
  · simp at hc
    rcases hc with rfl | rfl <;> decide

lemma den_one_cast {q : ℚ} (hq : q.den = 1) : ((q.num : ℚ)) = q := by
  conv_rhs => rw [← Rat.num_div_den q]
  rw [hq]
  norm_num

lemma pyInt_den_one {q : ℚ} (hq : q.den = 1) : pyInt q = q.num := by
  unfold pyInt
  rw [hq]
  simp [Int.tdiv_one]

lemma optMapM_map_some {α β : Type} (f : β → Option α) (g : α → β) :
    ∀ l : List α, (∀ a ∈ l, f (g a) = some a) → optMapM f (l.map g) = some l := by
  intro l
  induction l with
  | nil =>
    intro _
    rfl
  | cons a t ih =>
    intro h
    simp only [List.map_cons, optMapM]
    rw [h a (by simp), ih (fun x hx => h x (by simp [hx]))]

lemma loadtxt_render (e : Elevation) (data : List (List ℚ)) (w : Nat) (hw : 0 < w)
    (hrows : ∀ row ∈ data, row.length = w)
    (hint : ∀ row ∈ data, ∀ q ∈ row, q.den = 1) :
    loadtxt ((render e data).drop header_size) = some data := by
  have hdrop : (render e data).drop header_size =
      data.map (fun row => joinSpace (row.map pyStrFloat) ++ ['\n']) := rfl
  rw [hdrop]
  unfold loadtxt rowsOf
  rw [List.map_map]
  have htok : ∀ row ∈ data,
      (wsTokens ∘ fun row => joinSpace (row.map pyStrFloat) ++ ['\n']) row =
        (fun row => row.map pyStrFloat) row := by
    intro row hrow
    show wsTokens (joinSpace (row.map pyStrFloat) ++ ['\n']) = row.map pyStrFloat
    refine wsTokens_joinSpace _ ?_ ?_
    · intro t ht
      rw [List.mem_map] at ht
      obtain ⟨q, hq, rfl⟩ := ht
      exact pyStrFloat_ne_nil (hint row hrow q hq)
    · intro t ht
      rw [List.mem_map] at ht
      obtain ⟨q, hq, rfl⟩ := ht
      exact pyStrFloat_no_ws (hint row hrow q hq)
  rw [List.map_congr_left htok]
  have hne : ∀ ts ∈ data.map (fun row => row.map pyStrFloat), ts ≠ [] := by
    intro ts hts
    rw [List.mem_map] at hts
    obtain ⟨row, hrow, rfl⟩ := hts
    intro habs
    rw [List.map_eq_nil_iff] at habs
    have := hrows row hrow
    rw [habs] at this
    simp at this
    omega
  rw [List.filter_eq_self.mpr (fun ts hts => decide_eq_true (hne ts hts))]
  have hall : (data.map (fun row => row.map pyStrFloat)).all
      (fun ts => ts.length = ((data.map (fun row => row.map pyStrFloat)).headD []).length) =
        true := by
    cases data with
    | nil => rfl
    | cons row0 rest =>
      rw [List.all_eq_true]
      intro ts hts
      rw [List.mem_map] at hts
      obtain ⟨row, hrowm, rfl⟩ := hts
      have h1 : (row.map pyStrFloat).length = w := by
        rw [List.length_map]
        exact hrows row hrowm
      have h2 : ((((row0 :: rest).map (fun row => row.map pyStrFloat))).headD []).length = w := by
        show (row0.map pyStrFloat).length = w
        rw [List.length_map]
        exact hrows row0 (by simp)
      simp only [decide_eq_true_eq]
      rw [h1, h2]
  rw [if_pos hall]
  exact optMapM_map_some _ _ data (fun row hrow =>
    optMapM_map_some pyFloat pyStrFloat row (fun q hq =>
      pyFloat_pyStrFloat (hint row hrow q hq)))

lemma optMapM_cons_some {α β : Type} {f : α → Option β} {a : α} {l : List α} {b : β}
    {bs : List β} (ha : f a = some b) (hl : optMapM f l = some bs) :
    optMapM f (a :: l) = some (b :: bs) := by
  unfold optMapM
  rw [ha, hl]

lemma parse_headers_render (e : Elevation) (data : List (List ℚ))
    (hx : e.xllcorner.den = 1) (hy : e.yllcorner.den = 1) (hcs : e.cellsize.den = 1) :
    parse_headers (render e data) =
      some [((pyInt e.ncols : Int) : ℚ), ((pyInt e.nrows : Int) : ℚ),
        e.xllcorner, e.yllcorner, e.cellsize, ((-9999 : Int) : ℚ)] := by
  have h0 : clean ((render e data).getD 0 []) = some ((pyInt e.ncols : Int) : ℚ) := by
    rw [show (render e data).getD 0 [] =
        "ncols".toList ++ List.replicate (6 + 1) ' ' ++ pyStrInt (pyInt e.ncols) ++ ['\n'] from by
      show "ncols       ".toList ++ pyStrInt (pyInt e.ncols) ++ ['\n'] = _
      rw [show "ncols       ".toList = "ncols".toList ++ List.replicate (6 + 1) ' ' from by decide]]
    rw [clean_line _ _ 6 (pyStrInt_ne_nil _) (pyStrInt_no_ws _)]
    exact pyFloat_pyStrInt _
  have h1 : clean ((render e data).getD 1 []) = some ((pyInt e.nrows : Int) : ℚ) := by
    rw [show (render e data).getD 1 [] =
        "nrows".toList ++ List.replicate (6 + 1) ' ' ++ pyStrInt (pyInt e.nrows) ++ ['\n'] from by
      show "nrows       ".toList ++ pyStrInt (pyInt e.nrows) ++ ['\n'] = _
      rw [show "nrows       ".toList = "nrows".toList ++ List.replicate (6 + 1) ' ' from by decide]]
    rw [clean_line _ _ 6 (pyStrInt_ne_nil _) (pyStrInt_no_ws _)]
    exact pyFloat_pyStrInt _
  have h2 : clean ((render e data).getD 2 []) = some e.xllcorner := by
    rw [show (render e data).getD 2 [] =
        "xllcorner".toList ++ List.replicate (2 + 1) ' ' ++ pyStrFloat e.xllcorner ++ ['\n'] from by
      show "xllcorner   ".toList ++ pyStrFloat e.xllcorner ++ ['\n'] = _
      rw [show "xllcorner   ".toList = "xllcorner".toList ++ List.replicate (2 + 1) ' ' from by
        decide]]
    rw [clean_line _ _ 2 (pyStrFloat_ne_nil hx) (pyStrFloat_no_ws hx)]
    exact pyFloat_pyStrFloat hx
  have h3 : clean ((render e data).getD 3 []) = some e.yllcorner := by
    rw [show (render e data).getD 3 [] =
        "yllcorner".toList ++ List.replicate (2 + 1) ' ' ++ pyStrFloat e.yllcorner ++ ['\n'] from by
      show "yllcorner   ".toList ++ pyStrFloat e.yllcorner ++ ['\n'] = _
      rw [show "yllcorner   ".toList = "yllcorner".toList ++ List.replicate (2 + 1) ' ' from by
        decide]]
    rw [clean_line _ _ 2 (pyStrFloat_ne_nil hy) (pyStrFloat_no_ws hy)]
    exact pyFloat_pyStrFloat hy
  have h4 : clean ((render e data).getD 4 []) = some e.cellsize := by
    rw [show (render e data).getD 4 [] =
        "cellsize".toList ++ List.replicate (2 + 1) ' ' ++ pyStrFloat e.cellsize ++ ['\n'] from by
      show "cellsize   ".toList ++ pyStrFloat e.cellsize ++ ['\n'] = _
      rw [show "cellsize   ".toList = "cellsize".toList ++ List.replicate (2 + 1) ' ' from by
        decide]]
    rw [clean_line _ _ 2 (pyStrFloat_ne_nil hcs) (pyStrFloat_no_ws hcs)]
    exact pyFloat_pyStrFloat hcs
  have h5 : clean ((render e data).getD 5 []) = some ((-9999 : Int) : ℚ) := by
    rw [show (render e data).getD 5 [] =
        "NODATA_value".toList ++ List.replicate (2 + 1) ' ' ++ pyStrInt (-9999) ++ ['\n'] from by
      show "NODATA_value   ".toList ++ pyStrInt (-9999) ++ ['\n'] = _
      rw [show "NODATA_value   ".toList =
        "NODATA_value".toList ++ List.replicate (2 + 1) ' ' from by decide]]
    rw [clean_line _ _ 2 (pyStrInt_ne_nil _) (pyStrInt_no_ws _)]
    exact pyFloat_pyStrInt _
  unfold parse_headers
  rw [show List.range header_size = [0, 1, 2, 3, 4, 5] from rfl]
  exact optMapM_cons_some h0 (optMapM_cons_some h1 (optMapM_cons_some h2
    (optMapM_cons_some h3 (optMapM_cons_some h4 (optMapM_cons_some h5 rfl)))))

/-- Claim C8: rendering an output grid built over a source surface and
decoding the text through the same header and matrix parsing path
reproduces the georeferencing fields (with `ncols`/`nrows` written through
`int(...)`), the fixed output sentinel -9999 as `NODATA_value` regardless
of the input sentinel, and the appended rows in order.  The hypotheses
restrict values to exact integers, the only values the engine ever stores
(direction codes and the sentinel) and the only floats whose `str`
rendering is modelled. -/
theorem c8_round_trip (e : Elevation) (data : List (List ℚ)) (w : Nat)
    (hnc : e.ncols.den = 1) (hnr : e.nrows.den = 1)
    (hx : e.xllcorner.den = 1) (hy : e.yllcorner.den = 1) (hcs : e.cellsize.den = 1)
    (hw : 0 < w) (hrows : ∀ row ∈ data, row.length = w)
    (hint : ∀ row ∈ data, ∀ q ∈ row, q.den = 1) :
    elevation.read (render e data) =
      some ⟨e.ncols, e.nrows, e.xllcorner, e.yllcorner, e.cellsize, -9999, data⟩ := by
  have hload := loadtxt_render e data w hw hrows hint
  have hheads := parse_headers_render e data hx hy hcs
  unfold elevation.read
  rw [hload, hheads]
  show some (Elevation.mk ((pyInt e.ncols : Int) : ℚ) ((pyInt e.nrows : Int) : ℚ)
    e.xllcorner e.yllcorner e.cellsize ((-9999 : Int) : ℚ) data) = _
  rw [pyInt_den_one hnc, pyInt_den_one hnr, den_one_cast hnc, den_one_cast hnr]
  norm_num

/-- A source surface with a sentinel of -7, to exercise the fixed output
sentinel. -/
def eW : Elevation := ⟨2, 2, 0, 0, 1, -7, [[9, 9], [9, 9]]⟩

/-- The rows appended to the output grid in the C8 witness. -/
def dataW : List (List ℚ) := [[1, 2], [3, 255]]

/-- Witness for C8 at a concrete grid: the decoded header carries the
source georeferencing with NODATA -9999 (not the input sentinel -7) and
the decoded matrix equals the appended rows. -/
theorem c8_witness :
    elevation.read (render eW dataW) = some ⟨2, 2, 0, 0, 1, -9999, [[1, 2], [3, 255]]⟩ :=
  (c8_round_trip eW dataW 2 (by decide) (by decide) (by decide) (by decide) (by decide)
    (by decide) (by decide) (by decide)).trans (by decide)
